import Mathlib

/-!
Shallow embedding of `src/integrator.py` (class `NumericalIntegrator`) of the
NumIntViz repository, over exact rational arithmetic.

Modelling conventions:
* Python floats are modelled by `ℚ` (exact real/rational arithmetic, as the
  numerical claims stipulate).
* Python `None` results are `Option.none`; sample lists are `List ℚ`.
* The integer discretization parameter `n` is `ℤ`, so that the `n <= 0`
  guards of the source are meaningful.
* `np.linspace(a, b, num=m+1)` is the list of the `m+1` equally spaced
  grid points `a + i*(b-a)/m`.
* A Python slice `l[s:-e]` (with `e = 0` meaning "to the end") is `pySlice l s e`;
  a step-2 slice `l[s:-e:2]` is `everyOther (pySlice l s e)`.
* `np.sort(np.unique(...))` is `sortUnique`: sorting the deduplicated list.
* The unbounded recursion of `adaptive_simpson` is given an explicit fuel
  parameter; `none` means the recursion did not terminate within that depth.
* `np.polynomial.legendre.leggauss` is an external numerical routine; it is a
  parameter (`leggauss`) of `gaussian_quadrature`.
-/

namespace NumIntViz

/-- The grid point `a + i * (b - a) / m`, i.e. element `i` of
`np.linspace(a, b, num=m+1)` in exact arithmetic. -/
def gridPoint (a b : ℚ) (m : ℕ) (i : ℕ) : ℚ :=
  a + i * (b - a) / m

/-- `np.linspace(a, b, num=m+1)`: the `m+1` equally spaced points from `a` to `b`. -/
def linspace (a b : ℚ) (m : ℕ) : List ℚ :=
  (List.range (m + 1)).map (gridPoint a b m)

/-- Python slice `l[s:-e]`, where `e = 0` encodes an omitted stop (`l[s:]`). -/
def pySlice (l : List α) (s e : ℕ) : List α :=
  (l.take (l.length - e)).drop s

/-- Every other element of a list, starting with the first: the step-2 part of a
Python slice `[::2]`. -/
def everyOther : List α → List α
  | [] => []
  | [x] => [x]
  | x :: _ :: xs => x :: everyOther xs

/-- `riemann_left` from `src/integrator.py`: left Riemann sum.  Returns
`(total, x, x_left, y_left)`, with the sample data `none` when `n <= 0`. -/
def riemann_left (f : ℚ → ℚ) (a b : ℚ) (n : ℤ) :
    ℚ × Option (List ℚ) × Option (List ℚ) × Option (List ℚ) :=
  if n ≤ 0 then (0, none, none, none)
  else
    let x := linspace a b n.toNat
    let x_left := pySlice x 0 1
    let y_left := x_left.map f
    let total := y_left.sum * (b - a) / (n : ℚ)
    (total, some x, some x_left, some y_left)

/-- `riemann_right` from `src/integrator.py`: right Riemann sum. -/
def riemann_right (f : ℚ → ℚ) (a b : ℚ) (n : ℤ) :
    ℚ × Option (List ℚ) × Option (List ℚ) × Option (List ℚ) :=
  if n ≤ 0 then (0, none, none, none)
  else
    let x := linspace a b n.toNat
    let x_right := pySlice x 1 0
    let y_right := x_right.map f
    let total := y_right.sum * (b - a) / (n : ℚ)
    (total, some x, some x_right, some y_right)

/-- `riemann_mid` from `src/integrator.py`: midpoint Riemann sum.
`(x[:-1] + x[1:]) / 2` is the element-wise average of the two slices. -/
def riemann_mid (f : ℚ → ℚ) (a b : ℚ) (n : ℤ) :
    ℚ × Option (List ℚ) × Option (List ℚ) × Option (List ℚ) :=
  if n ≤ 0 then (0, none, none, none)
  else
    let x := linspace a b n.toNat
    let x_mid := List.zipWith (fun u v => (u + v) / 2) (pySlice x 0 1) (pySlice x 1 0)
    let y_mid := x_mid.map f
    let total := y_mid.sum * (b - a) / (n : ℚ)
    (total, some x, some x_mid, some y_mid)

/-- `trapezoid` from `src/integrator.py`: trapezoidal rule.  `y[0]` and `y[-1]`
are modelled with `headD`/`getLastD`; the list is nonempty in the branch where
they are used. -/
def trapezoid (f : ℚ → ℚ) (a b : ℚ) (n : ℤ) :
    ℚ × Option (List ℚ) × Option (List ℚ) :=
  if n ≤ 0 then (0, none, none)
  else
    let x := linspace a b n.toNat
    let y := x.map f
    let h := (b - a) / (n : ℚ)
    let total := (h / 2) * (y.headD 0 + 2 * (pySlice y 1 1).sum + y.getLastD 0)
    (total, some x, some y)

/-- `simpson` from `src/integrator.py`: composite Simpson rule on `n`
subintervals, with `n` silently incremented when odd.  `y[1:-1:2]` and
`y[2:-2:2]` are the step-2 slices. -/
def simpson (f : ℚ → ℚ) (a b : ℚ) (n : ℤ) :
    ℚ × Option (List ℚ) × Option (List ℚ) :=
  if n ≤ 0 then (0, none, none)
  else
    let m : ℤ := if n % 2 ≠ 0 then n + 1 else n
    let x := linspace a b m.toNat
    let y := x.map f
    let h := (b - a) / (m : ℚ)
    let total := (h / 3) * (y.headD 0 + 4 * (everyOther (pySlice y 1 1)).sum
        + 2 * (everyOther (pySlice y 2 2)).sum + y.getLastD 0)
    (total, some x, some y)

/-- The inner `simpson_step` of `adaptive_simpson`: the 3-point Simpson
estimate over `[a, b]` together with the points at which `f` was evaluated
(`eval_points.extend([a, b, c])` in the source). -/
def simpson_step (f : ℚ → ℚ) (a b : ℚ) : ℚ × List ℚ :=
  let c := (a + b) / 2
  let h := b - a
  ((h / 6) * (f a + 4 * f c + f b), [a, b, c])

/-- The inner `recursive_step` of `adaptive_simpson`, with explicit fuel.  The
second component collects every point at which `f` was evaluated, in the order
the source appends them to `eval_points`. -/
def recursive_step (f : ℚ → ℚ) : ℕ → ℚ → ℚ → ℚ → ℚ → Option (ℚ × List ℚ)
  | 0, _, _, _, _ => none
  | fuel + 1, a, b, tol, whole =>
    let c := (a + b) / 2
    let left := simpson_step f a c
    let right := simpson_step f c b
    if |left.1 + right.1 - whole| ≤ 15 * tol then
      some (left.1 + right.1 + (left.1 + right.1 - whole) / 15, left.2 ++ right.2)
    else
      match recursive_step f fuel a c (tol / 2) left.1,
            recursive_step f fuel c b (tol / 2) right.1 with
      | some l, some r => some (l.1 + r.1, left.2 ++ right.2 ++ l.2 ++ r.2)
      | _, _ => none

/-- `np.sort(np.unique(l))`: the sorted list of the distinct elements of `l`. -/
def sortUnique (l : List ℚ) : List ℚ :=
  (l.dedup).insertionSort (· ≤ ·)

/-- `adaptive_simpson` from `src/integrator.py`, with explicit recursion fuel.
Returns `(result, unique_points, f(unique_points))`. -/
def adaptive_simpson (f : ℚ → ℚ) (a b tol : ℚ) (fuel : ℕ) :
    Option (ℚ × List ℚ × List ℚ) :=
  let whole := simpson_step f a b
  match recursive_step f fuel a b tol whole.1 with
  | none => none
  | some r =>
    let unique_points := sortUnique (whole.2 ++ r.2)
    some (r.1, unique_points, unique_points.map f)

/-- `get_true_area` from `src/integrator.py`. -/
def get_true_area (f_int : ℚ → ℚ) (a b : ℚ) : ℚ :=
  f_int b - f_int a

/-- `get_error_metrics` from `src/integrator.py`. -/
def get_error_metrics (approx_area true_area : ℚ) : ℚ × ℚ :=
  (|approx_area - true_area|,
    if true_area ≠ 0 then (|approx_area - true_area| / |true_area|) * 100 else 0)

/-- The floor constant `1e-18` of `get_convergence_data`. -/
def floorConst : ℚ := 1 / 10 ^ 18

/-- The `method_map` dictionary of `get_convergence_data`; each entry is the
rule's approximation (the `approx, *_ = calc_method(...)` destructuring keeps
only the first component). -/
def method_map (method_name : String) : Option ((ℚ → ℚ) → ℚ → ℚ → ℤ → ℚ) :=
  List.lookup method_name
    [("Riemann Left", fun f a b n => (riemann_left f a b n).1),
     ("Riemann Right", fun f a b n => (riemann_right f a b n).1),
     ("Riemann Mid", fun f a b n => (riemann_mid f a b n).1),
     ("Trapezoidal", fun f a b n => (trapezoid f a b n).1),
     ("Simpson", fun f a b n => (simpson f a b n).1)]

/-- `get_convergence_data` from `src/integrator.py`. -/
def get_convergence_data (f : ℚ → ℚ) (a b : ℚ) (f_int : ℚ → ℚ) (ns : List ℤ)
    (method_name : String) : List ℤ × List ℚ :=
  let true_area := get_true_area f_int a b
  match method_map method_name with
  | none => ([], [])
  | some calc_method =>
      (ns, ns.map fun n =>
        max (get_error_metrics (calc_method f a b n) true_area).1 floorConst)

/-- `gaussian_quadrature` from `src/integrator.py`.  The nodes and weights on
`[-1, 1]` come from the external routine `np.polynomial.legendre.leggauss`,
modelled as the parameter `leggauss`. -/
def gaussian_quadrature (leggauss : ℤ → List ℚ × List ℚ) (f : ℚ → ℚ)
    (a b : ℚ) (n : ℤ) : ℚ × Option (List ℚ) × Option (List ℚ) :=
  if n ≤ 0 then (0, none, none)
  else
    let nw := leggauss n
    let transformed_nodes := nw.1.map (fun t => (1 / 2 : ℚ) * (t + 1) * (b - a) + a)
    let transformed_weights := nw.2.map (fun w => (1 / 2 : ℚ) * w * (b - a))
    let total := (List.zipWith (· * ·) transformed_weights (transformed_nodes.map f)).sum
    (total, some transformed_nodes, some (transformed_nodes.map f))

/-- The 3-point Simpson estimate over `[u, v]`, as the spec words it
("3-point Simpson estimate"); used to state the adaptive recursion the way
the claim describes it. -/
def simpsonEstimate (f : ℚ → ℚ) (u v : ℚ) : ℚ :=
  ((v - u) / 6) * (f u + 4 * f ((u + v) / 2) + f v)

/-- Modelled from the spec's description of the adaptive recursion (values
only): split at the midpoint, accept the Richardson-corrected estimate when
`|left + right - whole| <= 15*tol`, otherwise recurse on each half with
tolerance halved and `left`/`right` as the new baselines. -/
def claimAdaptiveRec (f : ℚ → ℚ) : ℕ → ℚ → ℚ → ℚ → ℚ → Option ℚ
  | 0, _, _, _, _ => none
  | fuel + 1, a, b, tol, whole =>
    let c := (a + b) / 2
    let left := simpsonEstimate f a c
    let right := simpsonEstimate f c b
    if |left + right - whole| ≤ 15 * tol then
      some (left + right + (left + right - whole) / 15)
    else do
      let l ← claimAdaptiveRec f fuel a c (tol / 2) left
      let r ← claimAdaptiveRec f fuel c b (tol / 2) right
      pure (l + r)

/-- Modelled from the spec: the adaptive rule first computes a coarse 3-point
Simpson estimate `whole` over `[a, b]`, then runs the recursion with it as the
baseline. -/
def claimAdaptive (f : ℚ → ℚ) (a b tol : ℚ) (fuel : ℕ) : Option ℚ :=
  claimAdaptiveRec f fuel a b tol (simpsonEstimate f a b)

/-- The exact integral of the cubic polynomial
`c₀ + c₁ x + c₂ x² + c₃ x³` over `[a, b]`:
the difference `F(b) - F(a)` of its antiderivative. -/
def polyIntegral (c₀ c₁ c₂ c₃ a b : ℚ) : ℚ :=
  c₀ * (b - a) + c₁ * (b ^ 2 - a ^ 2) / 2 + c₂ * (b ^ 3 - a ^ 3) / 3
    + c₃ * (b ^ 4 - a ^ 4) / 4

/-- The antiderivative of the cubic polynomial `c₀ + c₁ x + c₂ x² + c₃ x³`. -/
def cubicAnti (c₀ c₁ c₂ c₃ x : ℚ) : ℚ :=
  c₀ * x + c₁ * x ^ 2 / 2 + c₂ * x ^ 3 / 3 + c₃ * x ^ 4 / 4

/-! ### Helper lemmas about slices of equally spaced grids -/

theorem drop_range' : ∀ (K t s : ℕ), (List.range' t K).drop s = List.range' (t + s) (K - s)
  | 0, t, s => by simp
  | K + 1, t, 0 => by simp
  | K + 1, t, s + 1 => by
    rw [List.range'_succ, List.drop_succ_cons, drop_range' K (t + 1) s]
    congr 1 <;> omega

theorem pySlice_map_range (g : ℕ → α) (M s e : ℕ) :
    pySlice ((List.range M).map g) s e = (List.range' s (M - e - s)).map g := by
  rw [pySlice, List.length_map, List.length_range, ← List.map_take, List.take_range,
    ← List.map_drop, Nat.min_eq_left (Nat.sub_le M e), List.range_eq_range',
    drop_range' (M - e) 0 s, Nat.zero_add]

theorem everyOther_map_range' (g : ℕ → α) :
    ∀ (K s : ℕ), everyOther ((List.range' s K).map g)
      = (List.range ((K + 1) / 2)).map (fun j => g (s + 2 * j))
  | 0, s => by simp [everyOther]
  | 1, s => by simp [everyOther, List.range_succ]
  | K + 2, s => by
    rw [List.range'_succ, List.range'_succ, List.map_cons, List.map_cons, everyOther,
      everyOther_map_range' g K (s + 1 + 1)]
    have h2 : (K + 2 + 1) / 2 = (K + 1) / 2 + 1 := by omega
    rw [h2, List.range_succ_eq_map, List.map_cons, List.map_map]
    refine congrArg₂ _ (by simp) ?_
    refine List.map_congr_left fun j _ => ?_
    simp only [Function.comp_apply]
    congr 1
    omega

theorem list_sum_map_range (g : ℕ → ℚ) :
    ∀ K : ℕ, ((List.range K).map g).sum = ∑ j in Finset.range K, g j
  | 0 => by simp
  | K + 1 => by
    rw [List.range_succ, List.map_append, List.sum_append, Finset.sum_range_succ,
      list_sum_map_range g K]
    simp

theorem zipWith_map_range' (F : α → β → γ) (p : ℕ → α) (q : ℕ → β) :
    ∀ (n s t : ℕ), List.zipWith F ((List.range' s n).map p) ((List.range' t n).map q)
      = (List.range n).map (fun i => F (p (s + i)) (q (t + i)))
  | 0, s, t => by simp
  | n + 1, s, t => by
    rw [List.range'_succ, List.range'_succ, List.map_cons, List.map_cons, List.zipWith_cons_cons,
      zipWith_map_range' F p q n (s + 1) (t + 1), List.range_succ_eq_map, List.map_cons,
      List.map_map]
    refine congrArg₂ _ (by simp) ?_
    refine List.map_congr_left fun j _ => ?_
    simp only [Function.comp_apply, Nat.add_assoc, Nat.add_comm 1 j]

theorem headD_map_range (g : ℕ → ℚ) (M : ℕ) :
    (((List.range (M + 1)).map g).headD 0) = g 0 := by
  rw [List.range_succ_eq_map, List.map_cons, List.headD_cons]

theorem getLastD_map_range (g : ℕ → ℚ) (M : ℕ) :
    (((List.range (M + 1)).map g).getLastD 0) = g M := by
  rw [List.range_succ, List.map_append, List.map_singleton]
  simp

/-! ### Closed forms of the fixed-node rules for positive `n` -/

theorem riemann_left_total (f : ℚ → ℚ) (a b : ℚ) (n : ℤ) (hn : 0 < n) :
    (riemann_left f a b n).1
      = (∑ i in Finset.range n.toNat, f (gridPoint a b n.toNat i)) * (b - a) / (n : ℚ) := by
  rw [riemann_left, if_neg (by omega)]
  simp only [linspace, pySlice_map_range, List.map_map]
  rw [show n.toNat + 1 - 1 - 0 = n.toNat by omega, ← List.range_eq_range',
    list_sum_map_range]
  rfl

theorem riemann_right_total (f : ℚ → ℚ) (a b : ℚ) (n : ℤ) (hn : 0 < n) :
    (riemann_right f a b n).1
      = (∑ i in Finset.range n.toNat, f (gridPoint a b n.toNat (1 + i))) * (b - a) / (n : ℚ) := by
  rw [riemann_right, if_neg (by omega)]
  simp only [linspace, pySlice_map_range, List.map_map]
  rw [show n.toNat + 1 - 0 - 1 = n.toNat by omega, List.range'_eq_map_range,
    List.map_map, list_sum_map_range]
  rfl

theorem riemann_mid_total (f : ℚ → ℚ) (a b : ℚ) (n : ℤ) (hn : 0 < n) :
    (riemann_mid f a b n).1
      = (∑ i in Finset.range n.toNat,
          f ((gridPoint a b n.toNat i + gridPoint a b n.toNat (1 + i)) / 2))
          * (b - a) / (n : ℚ) := by
  rw [riemann_mid, if_neg (by omega)]
  simp only [linspace, pySlice_map_range]
  rw [show n.toNat + 1 - 1 - 0 = n.toNat by omega, show n.toNat + 1 - 0 - 1 = n.toNat by omega,
    zipWith_map_range' (fun u v => (u + v) / 2) _ _ n.toNat 0 1, List.map_map,
    list_sum_map_range]
  simp only [Nat.zero_add]
  rfl

theorem trapezoid_total (f : ℚ → ℚ) (a b : ℚ) (n : ℤ) (hn : 0 < n) :
    (trapezoid f a b n).1
      = ((b - a) / (n : ℚ) / 2) * (f (gridPoint a b n.toNat 0)
          + 2 * ∑ i in Finset.range (n.toNat - 1), f (gridPoint a b n.toNat (1 + i))
          + f (gridPoint a b n.toNat n.toNat)) := by
  rw [trapezoid, if_neg (by omega)]
  simp only [linspace, pySlice_map_range, List.map_map]
  rw [show n.toNat + 1 - 1 - 1 = n.toNat - 1 by omega, List.range'_eq_map_range,
    List.map_map, list_sum_map_range,
    headD_map_range (f ∘ gridPoint a b n.toNat) n.toNat,
    getLastD_map_range (f ∘ gridPoint a b n.toNat) n.toNat]
  rfl

theorem simpson_total (f : ℚ → ℚ) (a b : ℚ) (n : ℤ) (M : ℕ) (hn : 0 < n)
    (hM : (M : ℤ) = if n % 2 ≠ 0 then n + 1 else n) :
    simpson f a b n
      = (((b - a) / (M : ℚ) / 3) *
          (f (gridPoint a b M 0)
            + 4 * ∑ j in Finset.range (M / 2), f (gridPoint a b M (1 + 2 * j))
            + 2 * ∑ j in Finset.range ((M - 2) / 2), f (gridPoint a b M (2 + 2 * j))
            + f (gridPoint a b M M)),
         some (linspace a b M), some ((linspace a b M).map f)) := by
  have hM1 : 1 ≤ M := by
    by_cases h : n % 2 = 0
    · rw [if_neg (by simpa using h)] at hM; omega
    · rw [if_pos h] at hM; omega
  rw [simpson, if_neg (by omega)]
  simp only [← hM, Int.toNat_natCast, Int.cast_natCast]
  refine congrArg₂ _ ?_ rfl
  simp only [linspace, pySlice_map_range, List.map_map, List.length_map, List.length_range]
  rw [show M + 1 - 1 - 1 = M - 1 by omega, show M + 1 - 2 - 2 = M - 3 by omega,
    everyOther_map_range' (f ∘ gridPoint a b M) (M - 1) 1,
    everyOther_map_range' (f ∘ gridPoint a b M) (M - 3) 2,
    show (M - 1 + 1) / 2 = M / 2 by omega, show (M - 3 + 1) / 2 = (M - 2) / 2 by omega,
    list_sum_map_range, list_sum_map_range,
    headD_map_range (f ∘ gridPoint a b M) M,
    getLastD_map_range (f ∘ gridPoint a b M) M]
  rfl

theorem gridPoint_zero (a b : ℚ) (M : ℕ) : gridPoint a b M 0 = a := by
  simp [gridPoint]

theorem gridPoint_last (a b : ℚ) (M : ℕ) (h : (M : ℚ) ≠ 0) : gridPoint a b M M = b := by
  rw [gridPoint]
  field_simp

theorem gridPoint_swap (a b : ℚ) (M i : ℕ) (hi : i ≤ M) (hM : (M : ℚ) ≠ 0) :
    gridPoint b a M i = gridPoint a b M (M - i) := by
  rw [gridPoint, gridPoint, Nat.cast_sub hi]
  field_simp
  ring

/-! ### Claim theorems -/

/-- Claim C3: for every `n ≤ 0`, each of the five fixed-node rules and Gaussian
quadrature returns approximation exactly `0` with all sample sequences absent
(`none`, not empty), and raises no error (the functions are total). -/
theorem nonpositive_n_degenerate (f : ℚ → ℚ) (a b : ℚ) (n : ℤ)
    (leggauss : ℤ → List ℚ × List ℚ) (h : n ≤ 0) :
    riemann_left f a b n = (0, none, none, none) ∧
    riemann_right f a b n = (0, none, none, none) ∧
    riemann_mid f a b n = (0, none, none, none) ∧
    trapezoid f a b n = (0, none, none) ∧
    simpson f a b n = (0, none, none) ∧
    gaussian_quadrature leggauss f a b n = (0, none, none) := by
  refine ⟨?_, ?_, ?_, ?_, ?_, ?_⟩ <;>
    simp [riemann_left, riemann_right, riemann_mid, trapezoid, simpson,
      gaussian_quadrature, if_pos h]

/-- Witness for C3 at `n = 0`. -/
theorem nonpositive_n_degenerate_witness :
    (0 : ℤ) ≤ 0 ∧
      (riemann_left (fun x => x) 0 1 0 = (0, none, none, none) ∧
       riemann_right (fun x => x) 0 1 0 = (0, none, none, none) ∧
       riemann_mid (fun x => x) 0 1 0 = (0, none, none, none) ∧
       trapezoid (fun x => x) 0 1 0 = (0, none, none) ∧
       simpson (fun x => x) 0 1 0 = (0, none, none) ∧
       gaussian_quadrature (fun _ => ([], [])) (fun x => x) 0 1 0 = (0, none, none)) :=
  ⟨le_refl 0, nonpositive_n_degenerate (fun x => x) 0 1 0 (fun _ => ([], [])) (le_refl 0)⟩

/-- Claim C5: the error-metrics operation returns absolute error
`|approx - exact|`, and relative error `100 * abs_error / |exact|` when
`exact ≠ 0` and exactly `0` when `exact = 0`; it never raises a division
error (it is a total function). -/
theorem get_error_metrics_spec (approx exact : ℚ) :
    get_error_metrics approx exact
      = (|approx - exact|,
         if exact = 0 then 0 else 100 * |approx - exact| / |exact|) := by
  rcases eq_or_ne exact 0 with h | h
  · simp [get_error_metrics, h]
  · simp only [get_error_metrics, if_pos h, if_neg h]
    rw [div_mul_eq_mul_div, mul_comm]

/-- Claim C8: for every rule name not among the five fixed-node rule names,
the convergence sweep returns two empty sequences and does not raise an
error. -/
theorem get_convergence_data_unknown (f : ℚ → ℚ) (a b : ℚ) (f_int : ℚ → ℚ)
    (ns : List ℤ) (name : String)
    (h1 : name ≠ "Riemann Left") (h2 : name ≠ "Riemann Right")
    (h3 : name ≠ "Riemann Mid") (h4 : name ≠ "Trapezoidal")
    (h5 : name ≠ "Simpson") :
    get_convergence_data f a b f_int ns name = ([], []) := by
  have hmm : method_map name = none := by
    simp [method_map, List.lookup, beq_eq_false_iff_ne.mpr h1,
      beq_eq_false_iff_ne.mpr h2, beq_eq_false_iff_ne.mpr h3,
      beq_eq_false_iff_ne.mpr h4, beq_eq_false_iff_ne.mpr h5]
  simp [get_convergence_data, hmm]

/-- Witness for C8 at the unknown name "Gaussian". -/
theorem get_convergence_data_unknown_witness :
    ("Gaussian" ≠ "Riemann Left" ∧ "Gaussian" ≠ "Riemann Right" ∧
     "Gaussian" ≠ "Riemann Mid" ∧ "Gaussian" ≠ "Trapezoidal" ∧
     "Gaussian" ≠ "Simpson") ∧
    get_convergence_data (fun x => x) 0 1 (fun x => x ^ 2 / 2) [10, 20] "Gaussian"
      = ([], []) :=
  ⟨⟨by decide, by decide, by decide, by decide, by decide⟩,
   get_convergence_data_unknown (fun x => x) 0 1 (fun x => x ^ 2 / 2) [10, 20] "Gaussian"
     (by decide) (by decide) (by decide) (by decide) (by decide)⟩

/-- Counterexample to claim C4 as stated: for the unknown rule name "Foo" the
sweep does not return the sizes as supplied (it returns two empty sequences),
so the claim fails when quantified over every rule name. -/
theorem get_convergence_data_sizes_counterexample :
    (get_convergence_data (fun x => x) 0 1 (fun x => x ^ 2 / 2) [1] "Foo").1 ≠ [1] := by
  simp [get_convergence_data, show method_map "Foo" = none from rfl]

/-- Claim C4 (amended): for every recognized rule name (one the method map
contains), the sweep returns the sizes exactly as supplied, an errors sequence
of the same length whose entry at each index is the floored absolute error for
the size at the same index, and every returned error is at least the floor
constant `1e-18`. -/
theorem get_convergence_data_spec (f : ℚ → ℚ) (a b : ℚ) (f_int : ℚ → ℚ)
    (ns : List ℤ) (name : String) (cm : (ℚ → ℚ) → ℚ → ℚ → ℤ → ℚ)
    (hcm : method_map name = some cm) :
    (get_convergence_data f a b f_int ns name).1 = ns ∧
    (get_convergence_data f a b f_int ns name).2.length = ns.length ∧
    (∀ i, i < ns.length →
      (get_convergence_data f a b f_int ns name).2.getD i 0
        = max |cm f a b (ns.getD i 0) - get_true_area f_int a b| floorConst) ∧
    (∀ e ∈ (get_convergence_data f a b f_int ns name).2, floorConst ≤ e) := by
  have hrw : get_convergence_data f a b f_int ns name
      = (ns, ns.map fun n =>
          max (get_error_metrics (cm f a b n) (get_true_area f_int a b)).1 floorConst) := by
    simp [get_convergence_data, hcm]
  rw [hrw]
  refine ⟨rfl, by simp, fun i hi => ?_, fun e he => ?_⟩
  · rw [List.getD_eq_getElem?_getD, List.getD_eq_getElem?_getD, List.getElem?_map,
      List.getElem?_eq_getElem hi]
    simp [get_error_metrics]
  · obtain ⟨m, _, hm⟩ := List.mem_map.mp he
    exact hm ▸ le_max_right _ _

/-- Witness for C4 (amended) at the rule name "Riemann Left". -/
theorem get_convergence_data_spec_witness :
    method_map "Riemann Left" = some (fun f a b n => (riemann_left f a b n).1) ∧
    ((get_convergence_data (fun x => x) 0 1 (fun x => x ^ 2 / 2) [1, 2] "Riemann Left").1
        = [1, 2] ∧
     (get_convergence_data (fun x => x) 0 1 (fun x => x ^ 2 / 2) [1, 2] "Riemann Left").2.length
        = ([1, 2] : List ℤ).length ∧
     (∀ i, i < ([1, 2] : List ℤ).length →
       (get_convergence_data (fun x => x) 0 1 (fun x => x ^ 2 / 2) [1, 2] "Riemann Left").2.getD i 0
         = max |(riemann_left (fun x => x) 0 1 (([1, 2] : List ℤ).getD i 0)).1
             - get_true_area (fun x => x ^ 2 / 2) 0 1| floorConst) ∧
     (∀ e ∈ (get_convergence_data (fun x => x) 0 1 (fun x => x ^ 2 / 2) [1, 2] "Riemann Left").2,
       floorConst ≤ e)) :=
  ⟨rfl, get_convergence_data_spec (fun x => x) 0 1 (fun x => x ^ 2 / 2) [1, 2]
    "Riemann Left" (fun f a b n => (riemann_left f a b n).1) rfl⟩

/-- Claim C6: for odd `n > 0`, the fixed Simpson rule silently uses `n + 1`
subintervals (its result is the one for `n + 1`, and its breakpoint grid has
`n + 2` points), and the approximation is
`width/3 * (f(first) + 4*sum(odd-indexed interior) + 2*sum(even-indexed interior) + f(last))`
over those breakpoints; no error is raised (the function is total). -/
theorem simpson_odd_n (f : ℚ → ℚ) (a b : ℚ) (n : ℤ) (hn : 0 < n) (hodd : n % 2 = 1) :
    simpson f a b n = simpson f a b (n + 1) ∧
    (simpson f a b n).2.1 = some (linspace a b (n + 1).toNat) ∧
    (simpson f a b n).1
      = ((b - a) / ((n : ℚ) + 1) / 3) *
          (f (gridPoint a b (n + 1).toNat 0)
            + 4 * ∑ j in Finset.range ((n + 1).toNat / 2),
                f (gridPoint a b (n + 1).toNat (2 * j + 1))
            + 2 * ∑ j in Finset.range (((n + 1).toNat - 2) / 2),
                f (gridPoint a b (n + 1).toNat (2 * j + 2))
            + f (gridPoint a b (n + 1).toNat (n + 1).toNat)) := by
  have hM : (((n + 1).toNat : ℕ) : ℤ) = if n % 2 ≠ 0 then n + 1 else n := by
    rw [if_pos (by omega), Int.toNat_of_nonneg (by omega)]
  have hM' : (((n + 1).toNat : ℕ) : ℤ) = if (n + 1) % 2 ≠ 0 then n + 1 + 1 else n + 1 := by
    rw [if_neg (by omega), Int.toNat_of_nonneg (by omega)]
  have hcast : (((n + 1).toNat : ℕ) : ℚ) = (n : ℚ) + 1 := by
    have h0 : (((n + 1).toNat : ℕ) : ℤ) = n + 1 := Int.toNat_of_nonneg (by omega)
    rw [show (n : ℚ) + 1 = ((n + 1 : ℤ) : ℚ) by push_cast; ring, ← h0]
    norm_cast
  refine ⟨?_, ?_, ?_⟩
  · rw [simpson_total f a b n (n + 1).toNat hn hM,
      simpson_total f a b (n + 1) (n + 1).toNat (by omega) hM']
  · rw [simpson_total f a b n (n + 1).toNat hn hM]
  · rw [simpson_total f a b n (n + 1).toNat hn hM, hcast]
    refine congrArg₂ _ rfl (congrArg₂ _ (congrArg₂ _ (congrArg₂ _ rfl ?_) ?_) rfl)
    · exact congrArg _ (Finset.sum_congr rfl fun j _ => by rw [Nat.add_comm])
    · exact congrArg _ (Finset.sum_congr rfl fun j _ => by rw [Nat.add_comm])

theorem simpson_panels (g : ℕ → ℚ) (Mh : ℕ) (h1 : 1 ≤ Mh) :
    g 0 + 4 * (∑ j in Finset.range Mh, g (1 + 2 * j))
      + 2 * (∑ j in Finset.range (Mh - 1), g (2 + 2 * j)) + g (2 * Mh)
      = ∑ j in Finset.range Mh, (g (2 * j) + 4 * g (1 + 2 * j) + g (2 + 2 * j)) := by
  obtain ⟨K, rfl⟩ : ∃ K, Mh = K + 1 := ⟨Mh - 1, by omega⟩
  have e0 : ∑ j in Finset.range (K + 1), (g (2 * j) + 4 * g (1 + 2 * j) + g (2 + 2 * j))
      = (∑ j in Finset.range (K + 1), g (2 * j))
        + 4 * (∑ j in Finset.range (K + 1), g (1 + 2 * j))
        + ∑ j in Finset.range (K + 1), g (2 + 2 * j) := by
    rw [Finset.sum_add_distrib, Finset.sum_add_distrib, ← Finset.mul_sum]
  have e1 : ∑ j in Finset.range (K + 1), g (2 * j)
      = (∑ j in Finset.range K, g (2 + 2 * j)) + g 0 := by
    rw [Finset.sum_range_succ']
    refine congrArg₂ _ (Finset.sum_congr rfl fun j _ => by congr 1; omega) (by simp)
  have e2 : ∑ j in Finset.range (K + 1), g (2 + 2 * j)
      = (∑ j in Finset.range K, g (2 + 2 * j)) + g (2 * (K + 1)) := by
    rw [Finset.sum_range_succ]
    refine congrArg₂ _ rfl (by congr 1; omega)
  rw [e0, e1, e2, Nat.add_sub_cancel]
  ring

theorem cubic_panel (c₀ c₁ c₂ c₃ a b : ℚ) (M : ℕ) (hM : (M : ℚ) ≠ 0) (j : ℕ) :
    ((b - a) / (M : ℚ) / 3) *
        ((c₀ + c₁ * gridPoint a b M (2 * j) + c₂ * gridPoint a b M (2 * j) ^ 2
            + c₃ * gridPoint a b M (2 * j) ^ 3)
          + 4 * (c₀ + c₁ * gridPoint a b M (1 + 2 * j) + c₂ * gridPoint a b M (1 + 2 * j) ^ 2
            + c₃ * gridPoint a b M (1 + 2 * j) ^ 3)
          + (c₀ + c₁ * gridPoint a b M (2 + 2 * j) + c₂ * gridPoint a b M (2 + 2 * j) ^ 2
            + c₃ * gridPoint a b M (2 + 2 * j) ^ 3))
      = cubicAnti c₀ c₁ c₂ c₃ (gridPoint a b M (2 * (j + 1)))
        - cubicAnti c₀ c₁ c₂ c₃ (gridPoint a b M (2 * j)) := by
  rw [cubicAnti, cubicAnti, gridPoint, gridPoint, gridPoint, gridPoint]
  push_cast
  field_simp
  ring

/-- Claim C2: for every polynomial of degree at most 3 and every even `n ≥ 2`,
the fixed Simpson rule's approximation equals the exact integral over `[a, b]`
(in exact rational arithmetic). -/
theorem simpson_exact_cubic (c₀ c₁ c₂ c₃ a b : ℚ) (n : ℤ) (h2 : 2 ≤ n)
    (heven : n % 2 = 0) :
    (simpson (fun x => c₀ + c₁ * x + c₂ * x ^ 2 + c₃ * x ^ 3) a b n).1
      = polyIntegral c₀ c₁ c₂ c₃ a b := by
  have hM : ((n.toNat : ℕ) : ℤ) = if n % 2 ≠ 0 then n + 1 else n := by
    rw [if_neg (by omega), Int.toNat_of_nonneg (by omega)]
  obtain ⟨Mh, hMh⟩ : ∃ Mh, n.toNat = 2 * Mh := ⟨n.toNat / 2, by omega⟩
  have hMh1 : 1 ≤ Mh := by omega
  have hMq : ((n.toNat : ℕ) : ℚ) ≠ 0 := Nat.cast_ne_zero.mpr (by omega)
  rw [simpson_total _ a b n n.toNat (by omega) hM]
  simp only
  rw [show n.toNat / 2 = Mh by omega, show (n.toNat - 2) / 2 = Mh - 1 by omega, hMh,
    simpson_panels (fun i => c₀ + c₁ * gridPoint a b (2 * Mh) i
        + c₂ * gridPoint a b (2 * Mh) i ^ 2 + c₃ * gridPoint a b (2 * Mh) i ^ 3) Mh hMh1,
    Finset.mul_sum]
  rw [Finset.sum_congr rfl fun j _ =>
    cubic_panel c₀ c₁ c₂ c₃ a b (2 * Mh) (hMh ▸ hMq) j]
  rw [Finset.sum_range_sub (fun j => cubicAnti c₀ c₁ c₂ c₃ (gridPoint a b (2 * Mh) (2 * j))),
    Nat.mul_comm 2 Mh, gridPoint_last a b (Mh * 2) (by rw [Nat.mul_comm]; exact hMh ▸ hMq),
    Nat.mul_zero, gridPoint_zero, cubicAnti, cubicAnti, polyIntegral]
  ring

/-- Witness for C2: Simpson with `n = 2` integrates `x³` exactly over `[0, 2]`. -/
theorem simpson_exact_cubic_witness :
    ((2 : ℤ) ≤ 2 ∧ (2 : ℤ) % 2 = 0) ∧
    (simpson (fun x => 0 + 0 * x + 0 * x ^ 2 + 1 * x ^ 3) 0 2 2).1
      = polyIntegral 0 0 0 1 0 2 := by
  refine ⟨⟨le_refl 2, rfl⟩, ?_⟩
  exact simpson_exact_cubic 0 0 0 1 0 2 2 (le_refl 2) rfl

/-- Witness for C6 at `n = 1`, `f = id`, `[a, b] = [0, 1]`. -/
theorem simpson_odd_n_witness :
    ((0 : ℤ) < 1 ∧ (1 : ℤ) % 2 = 1) ∧
    (simpson (fun x => x) 0 1 1 = simpson (fun x => x) 0 1 2 ∧
     (simpson (fun x => x) 0 1 1).2.1 = some (linspace 0 1 2) ∧
     (simpson (fun x => x) 0 1 1).1
       = ((1 - 0) / ((1 : ℚ) + 1) / 3) *
           (gridPoint 0 1 2 0
             + 4 * ∑ j in Finset.range 1, gridPoint 0 1 2 (2 * j + 1)
             + 2 * ∑ j in Finset.range 0, gridPoint 0 1 2 (2 * j + 2)
             + gridPoint 0 1 2 2)) :=
  ⟨⟨by norm_num, by norm_num⟩, simpson_odd_n (fun x => x) 0 1 1 (by norm_num) (by norm_num)⟩

theorem zipWith_zero_weights (c : ℚ → ℚ) (hc : ∀ w, c w = 0) :
    ∀ (W Y : List ℚ), (List.zipWith (· * ·) (W.map c) Y).sum = 0
  | [], _ => by simp
  | _ :: _, [] => by simp
  | w :: W, y :: Y => by
    simp [zipWith_zero_weights c hc W Y, hc w]

/-- Claim C10: swapping the bounds negates the approximation (exact
arithmetic): `trapezoid(f,b,a,n) = -trapezoid(f,a,b,n)`,
`riemann_mid(f,b,a,n) = -riemann_mid(f,a,b,n)` and
`riemann_left(f,b,a,n) = -riemann_right(f,a,b,n)` for every `n > 0`; in
particular every rule returns `0` when `a = b`. -/
theorem swap_bounds_negates (f : ℚ → ℚ) (a b : ℚ) (n : ℤ)
    (leggauss : ℤ → List ℚ × List ℚ) (hn : 0 < n) :
    (trapezoid f b a n).1 = -(trapezoid f a b n).1 ∧
    (riemann_mid f b a n).1 = -(riemann_mid f a b n).1 ∧
    (riemann_left f b a n).1 = -(riemann_right f a b n).1 ∧
    ((riemann_left f a a n).1 = 0 ∧ (riemann_right f a a n).1 = 0 ∧
     (riemann_mid f a a n).1 = 0 ∧ (trapezoid f a a n).1 = 0 ∧
     (simpson f a a n).1 = 0 ∧ (gaussian_quadrature leggauss f a a n).1 = 0) := by
  set M := n.toNat with hMdef
  have hM1 : 1 ≤ M := by omega
  have hM0 : (M : ℚ) ≠ 0 := Nat.cast_ne_zero.mpr (by omega)
  refine ⟨?_, ?_, ?_, ?_, ?_, ?_, ?_, ?_, ?_⟩
  · -- trapezoid swap
    rw [trapezoid_total f b a n hn, trapezoid_total f a b n hn, ← hMdef]
    have hsum : ∑ i in Finset.range (M - 1), f (gridPoint b a M (1 + i))
        = ∑ i in Finset.range (M - 1), f (gridPoint a b M (1 + i)) := by
      rw [Finset.sum_congr rfl (fun i hi => ?_),
        Finset.sum_range_reflect (fun j => f (gridPoint a b M (1 + j))) (M - 1)]
      have hi' : i < M - 1 := Finset.mem_range.mp hi
      rw [gridPoint_swap a b M (1 + i) (by omega) hM0,
        show M - (1 + i) = 1 + (M - 1 - 1 - i) by omega]
    rw [hsum, gridPoint_swap a b M 0 (by omega) hM0,
      gridPoint_swap a b M M (by omega) hM0, Nat.sub_zero, Nat.sub_self]
    ring
  · -- riemann_mid swap
    rw [riemann_mid_total f b a n hn, riemann_mid_total f a b n hn, ← hMdef]
    have hsum : ∑ i in Finset.range M,
          f ((gridPoint b a M i + gridPoint b a M (1 + i)) / 2)
        = ∑ i in Finset.range M,
            f ((gridPoint a b M i + gridPoint a b M (1 + i)) / 2) := by
      rw [Finset.sum_congr rfl (fun i hi => ?_),
        Finset.sum_range_reflect
          (fun j => f ((gridPoint a b M j + gridPoint a b M (1 + j)) / 2)) M]
      have hi' : i < M := Finset.mem_range.mp hi
      rw [gridPoint_swap a b M i (by omega) hM0,
        gridPoint_swap a b M (1 + i) (by omega) hM0,
        show M - (1 + i) = M - 1 - i by omega,
        show (1 : ℕ) + (M - 1 - i) = M - i by omega,
        add_comm (gridPoint a b M (M - i))]
    rw [hsum]
    ring
  · -- riemann_left of swapped bounds is minus riemann_right
    rw [riemann_left_total f b a n hn, riemann_right_total f a b n hn, ← hMdef]
    have hsum : ∑ i in Finset.range M, f (gridPoint b a M i)
        = ∑ i in Finset.range M, f (gridPoint a b M (1 + i)) := by
      rw [Finset.sum_congr rfl (fun i hi => ?_),
        Finset.sum_range_reflect (fun j => f (gridPoint a b M (1 + j))) M]
      have hi' : i < M := Finset.mem_range.mp hi
      rw [gridPoint_swap a b M i (by omega) hM0,
        show M - i = 1 + (M - 1 - i) by omega]
    rw [hsum]
    ring
  · rw [riemann_left_total f a a n hn]; ring
  · rw [riemann_right_total f a a n hn]; ring
  · rw [riemann_mid_total f a a n hn]; ring
  · rw [trapezoid_total f a a n hn]; ring
  · -- simpson at a = b
    have hpos : (0 : ℤ) < if n % 2 ≠ 0 then n + 1 else n := by split <;> omega
    have hM' : (((if n % 2 ≠ 0 then n + 1 else n).toNat : ℕ) : ℤ)
        = if n % 2 ≠ 0 then n + 1 else n := Int.toNat_of_nonneg hpos.le
    rw [simpson_total f a a n _ hn hM']
    ring
  · -- gaussian at a = b
    rw [gaussian_quadrature, if_neg (by omega)]
    exact zipWith_zero_weights _ (fun w => by ring) _ _

/-- Witness for C10 at `f = id`, `a = 0`, `b = 1`, `n = 2`. -/
theorem swap_bounds_negates_witness :
    (0 : ℤ) < 2 ∧
    ((trapezoid (fun x => x) 1 0 2).1 = -(trapezoid (fun x => x) 0 1 2).1 ∧
     (riemann_mid (fun x => x) 1 0 2).1 = -(riemann_mid (fun x => x) 0 1 2).1 ∧
     (riemann_left (fun x => x) 1 0 2).1 = -(riemann_right (fun x => x) 0 1 2).1 ∧
     ((riemann_left (fun x => x) 0 0 2).1 = 0 ∧
      (riemann_right (fun x => x) 0 0 2).1 = 0 ∧
      (riemann_mid (fun x => x) 0 0 2).1 = 0 ∧
      (trapezoid (fun x => x) 0 0 2).1 = 0 ∧
      (simpson (fun x => x) 0 0 2).1 = 0 ∧
      (gaussian_quadrature (fun _ => ([], [])) (fun x => x) 0 0 2).1 = 0)) :=
  ⟨by norm_num,
   swap_bounds_negates (fun x => x) 0 1 2 (fun _ => ([], [])) (by norm_num)⟩

theorem recursive_step_fst (f : ℚ → ℚ) : ∀ (fuel : ℕ) (a b tol whole : ℚ),
    (recursive_step f fuel a b tol whole).map Prod.fst
      = claimAdaptiveRec f fuel a b tol whole
  | 0, _, _, _, _ => rfl
  | fuel + 1, a, b, tol, whole => by
    have hstep : ∀ u v : ℚ, (simpson_step f u v).1 = simpsonEstimate f u v :=
      fun u v => rfl
    rw [recursive_step, claimAdaptiveRec]
    simp only [hstep]
    by_cases hc : |simpsonEstimate f a ((a + b) / 2) + simpsonEstimate f ((a + b) / 2) b
        - whole| ≤ 15 * tol
    · rw [if_pos hc, if_pos hc]
      rfl
    · rw [if_neg hc, if_neg hc,
        ← recursive_step_fst f fuel a ((a + b) / 2) (tol / 2)
            (simpsonEstimate f a ((a + b) / 2)),
        ← recursive_step_fst f fuel ((a + b) / 2) b (tol / 2)
            (simpsonEstimate f ((a + b) / 2) b)]
      cases recursive_step f fuel a ((a + b) / 2) (tol / 2)
          (simpsonEstimate f a ((a + b) / 2)) with
      | none => rfl
      | some l =>
        cases recursive_step f fuel ((a + b) / 2) b (tol / 2)
            (simpsonEstimate f ((a + b) / 2) b) with
        | none => rfl
        | some r => rfl

/-- Claim C1: the adaptive Simpson rule first computes a coarse 3-point Simpson
estimate `whole` over `[a, b]`, then at each level splits at the midpoint,
accepts `left + right + (left + right - whole)/15` when
`|left + right - whole| <= 15*tol`, and otherwise sums the recursive results on
the two halves with tolerance `tol/2` and `left`/`right` as baselines: its
value refines `claimAdaptive`, the recursion written exactly as the spec
states it (at every recursion depth). -/
theorem adaptive_simpson_refines_spec (f : ℚ → ℚ) (a b tol : ℚ) (fuel : ℕ) :
    (adaptive_simpson f a b tol fuel).map (fun r => r.1)
      = claimAdaptive f a b tol fuel := by
  rw [adaptive_simpson, claimAdaptive,
    ← recursive_step_fst f fuel a b tol (simpsonEstimate f a b),
    show simpsonEstimate f a b = (simpson_step f a b).1 from rfl]
  cases recursive_step f fuel a b tol (simpson_step f a b).1 with
  | none => rfl
  | some r => rfl

theorem sortUnique_sorted (l : List ℚ) : (sortUnique l).Sorted (· < ·) := by
  have hperm : List.Perm (sortUnique l) l.dedup := List.perm_insertionSort _ _
  have hnd : (sortUnique l).Nodup := hperm.nodup_iff.mpr l.nodup_dedup
  exact (List.sorted_insertionSort _ _).lt_of_le hnd

theorem sortUnique_nodup (l : List ℚ) : (sortUnique l).Nodup :=
  (List.perm_insertionSort _ _).nodup_iff.mpr l.nodup_dedup

theorem sortUnique_toFinset (l : List ℚ) : (sortUnique l).toFinset = l.toFinset := by
  ext x
  simp [List.mem_toFinset, sortUnique, (List.perm_insertionSort
    (fun u v : ℚ => decide (u ≤ v)) l.dedup).mem_iff, List.mem_dedup]

/-- Claim C7: whenever the adaptive Simpson rule terminates, the returned
abscissa sequence is strictly sorted (so it has no duplicates) and its set of
values is exactly the set of all points at which `f` was evaluated during the
recursion (the coarse step's points together with the recursion's points), and
the returned ordinate sequence is `f` re-evaluated (mapped) over exactly that
abscissa sequence. -/
theorem adaptive_simpson_points_spec (f : ℚ → ℚ) (a b tol : ℚ) (fuel : ℕ)
    (res : ℚ) (xs ys : List ℚ)
    (h : adaptive_simpson f a b tol fuel = some (res, xs, ys)) :
    xs.Sorted (· < ·) ∧ xs.Nodup ∧
    (∃ r, recursive_step f fuel a b tol (simpson_step f a b).1 = some r ∧
      xs.toFinset = ((simpson_step f a b).2 ++ r.2).toFinset) ∧
    ys = xs.map f := by
  rw [adaptive_simpson] at h
  cases hrec : recursive_step f fuel a b tol (simpson_step f a b).1 with
  | none => rw [hrec] at h; exact absurd h (by simp)
  | some r =>
    rw [hrec] at h
    simp only [Option.some.injEq, Prod.mk.injEq] at h
    obtain ⟨-, h2, h3⟩ := h
    subst h2
    refine ⟨sortUnique_sorted _, sortUnique_nodup _,
      ⟨r, rfl, sortUnique_toFinset _⟩, h3.symm⟩

/-- Witness for C7 on a terminating run (`f = id`, `a = b = 0`, `tol = 0`). -/
theorem adaptive_simpson_points_spec_witness :
    adaptive_simpson (fun x => x) 0 0 0 1 = some (0, [0], [0]) ∧
    (([0] : List ℚ).Sorted (· < ·) ∧ ([0] : List ℚ).Nodup ∧
     (∃ r, recursive_step (fun x => x) 1 0 0 0 (simpson_step (fun x => x) 0 0).1
          = some r ∧
        ([0] : List ℚ).toFinset
          = ((simpson_step (fun x => x) 0 0).2 ++ r.2).toFinset) ∧
     ([0] : List ℚ) = ([0] : List ℚ).map (fun x => x)) := by
  have h : adaptive_simpson (fun x => x) 0 0 0 1 = some (0, [0], [0]) := by
    simp [adaptive_simpson, recursive_step, simpson_step, sortUnique, List.dedup,
      List.pwFilter, List.insertionSort, List.orderedInsert]
  exact ⟨h, adaptive_simpson_points_spec (fun x => x) 0 0 0 1 0 [0] [0] h⟩

/-- Counterexample to claim C9 as stated: given the non-positive tolerance
`0`, the adaptive rule does not fail with an `InvalidArgument` error; it
attempts the computation and returns a result. -/
theorem adaptive_simpson_tol_zero_counterexample :
    (0 : ℚ) ≤ 0 ∧ adaptive_simpson (fun _ => (1 : ℚ)) 0 1 0 1
      = some (1, [0, 1/4, 1/2, 3/4, 1], [1, 1, 1, 1, 1]) := by
  refine ⟨le_refl 0, ?_⟩
  norm_num [adaptive_simpson, recursive_step, simpson_step, sortUnique, List.dedup,
    List.pwFilter, List.insertionSort, List.orderedInsert]

theorem recursive_step_none_of_neg (f : ℚ → ℚ) :
    ∀ (fuel : ℕ) (a b tol whole : ℚ), tol < 0 →
      recursive_step f fuel a b tol whole = none
  | 0, _, _, _, _, _ => rfl
  | fuel + 1, a, b, tol, whole, htol => by
    rw [recursive_step,
      if_neg (not_le.mpr (lt_of_lt_of_le (by linarith) (abs_nonneg _))),
      recursive_step_none_of_neg f fuel a ((a + b) / 2) (tol / 2) _ (by linarith),
      recursive_step_none_of_neg f fuel ((a + b) / 2) b (tol / 2) _ (by linarith)]

/-- Claim C9 (amended): the adaptive rule performs no tolerance validation and
raises no error for non-positive `tol`; it attempts the computation.  With
`tol = 0` it can even return normally (see the counterexample), and with
`tol < 0` the acceptance test `|left + right - whole| <= 15*tol` can never
succeed, so the recursion never terminates: it exhausts every finite recursion
depth. -/
theorem adaptive_simpson_negative_tol_diverges (f : ℚ → ℚ) (a b tol : ℚ)
    (htol : tol < 0) (fuel : ℕ) :
    recursive_step f fuel a b tol (simpson_step f a b).1 = none ∧
    adaptive_simpson f a b tol fuel = none := by
  have h := recursive_step_none_of_neg f fuel a b tol (simpson_step f a b).1 htol
  refine ⟨h, ?_⟩
  rw [adaptive_simpson, h]

/-- Witness for C9 (amended) at `tol = -1`. -/
theorem adaptive_simpson_negative_tol_diverges_witness :
    (-1 : ℚ) < 0 ∧
    (recursive_step (fun x => x) 2 0 1 (-1) (simpson_step (fun x => x) 0 1).1 = none ∧
     adaptive_simpson (fun x => x) 0 1 (-1) 2 = none) :=
  ⟨by norm_num,
   adaptive_simpson_negative_tol_diverges (fun x => x) 0 1 (-1) (by norm_num) 2⟩

end NumIntViz
